import Mathlib

/-!
Shallow embedding of the cache lifecycle and page-resolution subsystem of
tealdeer (`src/cache.rs`), together with theorems checking the
natural-language specification against it.

Modelling conventions:
* Filesystem paths are strings; `pathJoin` mirrors Unix `PathBuf::join`
  (an absolute right operand replaces the left operand entirely).
* The filesystem is a triple of boolean observations (`pathExists`,
  `isFile`, `isDir`), exactly the observations `cache.rs` makes.
* The process environment is a partial map from variable names to values
  (`env::var` returning `Ok v` is modelled as `some v`).
* Machine effects that `cache.rs` merely forwards (the HTTP transport, the
  `app_dirs` user-cache lookup, the success of `fs::remove_dir_all`) are
  parameters of the corresponding functions.
-/

/-- Variants of `crate::error::TealdeerError` as used by `cache.rs`. -/
inductive TealdeerError where
  | CacheError (msg : String)
  | UpdateError (msg : String)
deriving Repr, DecidableEq

/-- `crate::types::OsType`, with exactly the variants matched in
`Cache::get_platform_dir`. -/
inductive OsType where
  | Linux
  | OsX
  | SunOs
  | Windows
  | Other
deriving Repr, DecidableEq

/-- The process environment, as observed through `env::var`. -/
abbrev Env := String → Option String

/-- Filesystem observations made by `cache.rs`. -/
structure FS where
  pathExists : String → Bool
  isFile : String → Bool
  isDir : String → Bool

/-- Whether a path string is absolute (Unix convention, leading slash). -/
def isAbsolute (s : String) : Bool :=
  match s.toList with
  | c :: _ => c == '/'
  | [] => false

/-- `PathBuf::join`: joining an absolute path replaces the base entirely,
joining a relative path appends a new segment. -/
def pathJoin (a b : String) : String :=
  if isAbsolute b then b else a ++ "/" ++ b

/-- `Cache::get_cache_dir` (src/cache.rs:36-60).  `appRoot` is the answer of
`app_dirs::get_app_root(AppDataType::UserCache, ..)` (`none` models its
error case). -/
def get_cache_dir (env : Env) (fs : FS) (appRoot : Option String) :
    Except TealdeerError String :=
  match env "TEALDEER_CACHE_DIR" with
  | some value =>
    let path := value
    if fs.pathExists path && fs.isDir path then
      Except.ok path
    else
      Except.error (TealdeerError.CacheError
        "Path specified by $TEALDEER_CACHE_DIR does not exist or is not a directory.")
  | none =>
    match appRoot with
    | some dirs => Except.ok dirs
    | none => Except.error (TealdeerError.CacheError
        "Could not determine user cache directory.")

/-- `Cache::get_platform_dir` (src/cache.rs:135-143). -/
def get_platform_dir (os : OsType) : Option String :=
  match os with
  | OsType.Linux => some "linux"
  | OsType.OsX => some "osx"
  | OsType.SunOs => none
  | OsType.Windows => some "windows"
  | OsType.Other => none

/-- The pages directory `cache_dir.join("tldr-master").join("pages")`
(src/cache.rs:152). -/
def platformsDirOf (cacheDir : String) : String :=
  pathJoin (pathJoin cacheDir "tldr-master") "pages"

/-- The `if p.exists() && p.is_file() { Some(p) } else { None }` pattern used
for each candidate page path in `Cache::find_pages`. -/
def checkFile (fs : FS) (p : String) : Option String :=
  if fs.pathExists p && fs.isFile p then some p else none

/-- The platform-specific candidate page (src/cache.rs:163-172). -/
def pfCandidate (fs : FS) (platformsDir : String) (os : OsType)
    (pageFilename : String) : Option String :=
  match get_platform_dir os with
  | some pf => checkFile fs (pathJoin (pathJoin platformsDir pf) pageFilename)
  | none => none

/-- The `common` candidate page (src/cache.rs:176-181). -/
def commonCandidate (fs : FS) (platformsDir : String)
    (pageFilename : String) : Option String :=
  checkFile fs (pathJoin (pathJoin platformsDir "common") pageFilename)

/-- The custom pages directory value (src/cache.rs:184-188): the
`TEALDEER_CUSTOM_PAGES_DIR` variable, defaulting to `"../pages.custom"`. -/
def customEnvDir (env : Env) : String :=
  match env "TEALDEER_CUSTOM_PAGES_DIR" with
  | some value => value
  | none => "../pages.custom"

/-- The custom candidate page (src/cache.rs:191-196). -/
def customCandidate (env : Env) (fs : FS) (platformsDir : String)
    (pageFilename : String) : Option String :=
  checkFile fs (pathJoin (pathJoin platformsDir (customEnvDir env)) pageFilename)

/-- `Cache::find_pages` (src/cache.rs:146-207).  Returns `none` both when no
page is found and when the cache directory cannot be resolved (in the latter
case the code logs the error and returns `None`). -/
def find_pages (env : Env) (fs : FS) (appRoot : Option String) (os : OsType)
    (name : String) : Option (List String) :=
  let page_filename := name ++ ".md"
  match get_cache_dir env fs appRoot with
  | Except.error _ => none
  | Except.ok cache_dir =>
    let platforms_dir := platformsDirOf cache_dir
    match pfCandidate fs platforms_dir os page_filename,
          commonCandidate fs platforms_dir page_filename,
          customCandidate env fs platforms_dir page_filename with
    | some pfp, _, some cup => some [pfp, cup]
    | some pfp, _, none => some [pfp]
    | none, some cop, some cup => some [cop, cup]
    | none, some cop, none => some [cop]
    | none, none, some cup => some [cup]
    | none, none, none => none

/-- The precedence table of spec §4.4, written from the spec's own rows:
platform present (common irrelevant) and custom present gives
`[platform, custom]`; platform alone gives `[platform]`; common with custom
gives `[common, custom]`; common alone gives `[common]`; custom alone gives
`[custom]`; all absent is NotFound. -/
def precedenceTable (platformPath commonPath customPath : Option String) :
    Option (List String) :=
  match platformPath, commonPath, customPath with
  | some p, _, some c => some [p, c]
  | some p, _, none => some [p]
  | none, some co, some c => some [co, c]
  | none, some co, none => some [co]
  | none, none, some c => some [c]
  | none, none, none => none

/-- An HTTP response as observed by `Cache::download`: a status code and a
body.  `cache.rs` never reads the status field. -/
structure HttpResponse where
  status : Nat
  body : List Nat
deriving Repr, DecidableEq

/-- `Cache::download` (src/cache.rs:63-81).  `sendResult` is the outcome of
`client.get(&self.url).send()`: `Except.error e` models a transport or TLS
failure, `Except.ok resp` a received HTTP response of any status.  `copyOk`
models whether `resp.copy_to(&mut buf)` succeeds in reading the body.
Failing `reqwest` calls are converted by `?` through
`From<reqwest::Error> for TealdeerError`; that impl lives in `error.rs`
(not under src/), modelled from the spec: network failures are classified
as `UpdateError`.  Note the source never inspects `resp.status()`. -/
def download (sendResult : Except String HttpResponse) (copyOk : Bool) :
    Except TealdeerError (List Nat) :=
  match sendResult with
  | Except.error e => Except.error (TealdeerError.UpdateError e)
  | Except.ok resp =>
    if copyOk then Except.ok resp.body
    else Except.error (TealdeerError.UpdateError "could not read response body")

/-- A forest of directory entries, used to model the directory tree under
the pages directory that `Cache::list_pages` walks with `WalkDir`.  A forest
is a sequence of entries, each either a plain file or a directory with its
own forest of children. -/
inductive FsForest where
  | nil : FsForest
  | consFile (name : String) (rest : FsForest) : FsForest
  | consDir (name : String) (children : FsForest) (rest : FsForest) : FsForest
deriving Repr, DecidableEq

/-- The `should_walk` closure of `Cache::list_pages` (src/cache.rs:218-235):
directories pass only when named `common` or like the active platform
directory; plain files always pass. -/
def should_walk (platform : Option String) (entryIsDir : Bool)
    (fileName : String) : Bool :=
  if entryIsDir then
    if fileName == "common" then true
    else
      match platform with
      | some p => fileName == p
      | none => false
  else true

/-- The entries yielded by
`WalkDir::new(root).min_depth(1).into_iter().filter_entry(pred)` on the
forest of children of the root: each yielded entry is its path (segments
below the root) paired with whether it is a directory.  `filter_entry`
applies `pred` to every entry at depth ≥ 1 and does not descend into a
directory for which `pred` is false. -/
def walkForest (pred : Bool → String → Bool) (base : List String) :
    FsForest → List (List String × Bool)
  | FsForest.nil => []
  | FsForest.consFile n ts =>
    (if pred false n then [(base ++ [n], false)] else []) ++ walkForest pred base ts
  | FsForest.consDir n cs ts =>
    (if pred true n then
      (base ++ [n], true) :: walkForest pred (base ++ [n]) cs
    else []) ++ walkForest pred base ts

/-- Split a character list at every dot. -/
def splitDots : List Char → List (List Char)
  | [] => [[]]
  | c :: cs =>
    let r := splitDots cs
    if c == '.' then [] :: r
    else
      match r with
      | [] => [[c]]
      | h :: t => (c :: h) :: t

/-- Join character lists with dots (inverse of `splitDots`). -/
def joinDots : List (List Char) → List Char
  | [] => []
  | [x] => x
  | x :: y :: t => x ++ '.' :: joinDots (y :: t)

/-- Rust's `Path::file_stem` / `Path::extension` pair on a file name: the
extension is the part after the last dot, unless the only dot is leading
(or there is none), in which case there is no extension and the stem is the
whole name. -/
def fileStemExt (n : String) : String × Option String :=
  match splitDots n.toList with
  | [] => (n, none)
  | [_] => (n, none)
  | p :: ps =>
    if p.isEmpty && ps.length == 1 then (n, none)
    else (String.mk (joinDots ((p :: ps).dropLast)),
          some (String.mk (ps.getLastD [])))

/-- Last segment of a path (the entry's file name). -/
def lastSeg : List String → String
  | [] => ""
  | [x] => x
  | _ :: x :: xs => lastSeg (x :: xs)

/-- The unsorted stem collection of `Cache::list_pages`
(src/cache.rs:238-253): walk the pages forest under `should_walk`, keep the
file entries whose extension is `md`, and map each to its file stem. -/
def collectStems (platform : Option String) (tree : FsForest) : List String :=
  (walkForest (should_walk platform) [] tree).filterMap fun e =>
    let nm := lastSeg e.1
    let se := fileStemExt nm
    if !e.2 && (se.2.getD "") == "md" then some se.1 else none

/-- Character-list lexicographic order on Unicode scalar values.  This is
the order Rust's `String: Ord` induces (UTF-8 byte order coincides with
scalar-value order). -/
def listLe : List Char → List Char → Bool
  | [], _ => true
  | _ :: _, [] => false
  | a :: as, b :: bs =>
    if a.toNat < b.toNat then true
    else if b.toNat < a.toNat then false
    else listLe as bs

/-- String order used by `pages.sort()`. -/
def strLe (a b : String) : Bool := listLe a.toList b.toList

/-- Insert into a sorted list, preserving sortedness. -/
def insertSorted (x : String) : List String → List String
  | [] => [x]
  | y :: ys => if strLe x y then x :: y :: ys else y :: insertSorted x ys

/-- Insertion sort by `strLe`; this models `pages.sort()` (a stable sort by
a total order determines the output uniquely, so any correct sort agrees). -/
def sortPages : List String → List String
  | [] => []
  | x :: xs => insertSorted x (sortPages xs)

/-- `Vec::dedup` (src/cache.rs:255): remove consecutive repeated
elements. -/
def dedupConsec : List String → List String
  | [] => []
  | [a] => [a]
  | a :: b :: rest =>
    if a == b then dedupConsec (b :: rest)
    else a :: dedupConsec (b :: rest)

/-- `Cache::list_pages` (src/cache.rs:210-257), given an already resolved
pages forest (the children of `CacheRoot/tldr-master/pages`): walk, collect
`.md` stems, sort, dedup. -/
def list_pages (platform : Option String) (tree : FsForest) : List String :=
  dedupConsec (sortPages (collectStems platform tree))

/-- Whether `p` lies at or below `root` (so `fs::remove_dir_all root`
removes it). -/
def isUnder (root p : String) : Bool :=
  p == root || (root ++ "/").toList.isPrefixOf p.toList

/-- Effect of `fs::remove_dir_all root` on the observed filesystem: the root
and everything under it stops existing. -/
def FS.removeAll (fs : FS) (root : String) : FS :=
  { pathExists := fun p => if isUnder root p then false else fs.pathExists p
    isFile := fun p => if isUnder root p then false else fs.isFile p
    isDir := fun p => if isUnder root p then false else fs.isDir p }

/-- `Cache::clear` (src/cache.rs:260-281).  `removeOk` models whether
`fs::remove_dir_all` succeeds; on success the resulting filesystem is
returned. -/
def clear (env : Env) (fs : FS) (appRoot : Option String) (removeOk : Bool) :
    Except TealdeerError FS :=
  match get_cache_dir env fs appRoot with
  | Except.error e => Except.error e
  | Except.ok path =>
    if fs.pathExists path && fs.isDir path then
      if removeOk then Except.ok (fs.removeAll path)
      else Except.error (TealdeerError.CacheError
        ("Could not remove cache directory (" ++ path ++ ")."))
    else if fs.pathExists path then
      Except.error (TealdeerError.CacheError
        ("Cache path (" ++ path ++ ") is not a directory."))
    else
      Except.error (TealdeerError.CacheError
        ("Cache path (" ++ path ++ ") does not exist."))

-- Concrete fixtures used by witnesses.

/-- An environment with no variables set. -/
def envEmpty : Env := fun _ => none

/-- An environment that sets only `TEALDEER_CACHE_DIR`. -/
def envCacheDirSet : Env := fun k =>
  if k == "TEALDEER_CACHE_DIR" then some "/c" else none

/-- A filesystem in which every path exists as both file and directory. -/
def fsAll : FS :=
  { pathExists := fun _ => true, isFile := fun _ => true, isDir := fun _ => true }

/-- A filesystem in which no path exists. -/
def fsNone : FS :=
  { pathExists := fun _ => false, isFile := fun _ => false, isDir := fun _ => false }

example : get_cache_dir envEmpty fsAll (some "/c") = Except.ok "/c" := rfl

example : find_pages envEmpty fsAll (some "/c") OsType.Linux "tar" =
    some ["/c/tldr-master/pages/linux/tar.md",
          "/c/tldr-master/pages/../pages.custom/tar.md"] := by decide

example : find_pages envEmpty fsNone (some "/c") OsType.Linux "tar" = none := by decide

example : download (Except.ok { status := 404, body := [1, 2] }) true =
    Except.ok [1, 2] := rfl

example : fileStemExt "tar.md" = ("tar", some "md") := by decide

example : fileStemExt ".md" = (".md", none) := by decide

example : fileStemExt "a.b.md" = ("a.b", some "md") := by decide

/-- Whether the forest contains a regular file at the path `ps` (a nonempty
list of segments: directory names followed by the file name). -/
def hasFileAt (ps : List String) : FsForest → Bool
  | FsForest.nil => false
  | FsForest.consFile m rest => ps == [m] || hasFileAt ps rest
  | FsForest.consDir m cs rest =>
    (match ps with
     | p :: q :: qs => m == p && hasFileAt (q :: qs) cs
     | _ => false) || hasFileAt ps rest

/-- A pages forest holding only `common/tar.md`. -/
def forestFlat : FsForest :=
  FsForest.consDir "common" (FsForest.consFile "tar.md" FsForest.nil) FsForest.nil

/-- A sample pages forest: `common/{tar.md, apt.md}`, `linux/tar.md`,
`windows/choco.md`, a stray top-level `top.md` and a non-md file. -/
def forestSample : FsForest :=
  FsForest.consDir "common"
    (FsForest.consFile "tar.md" (FsForest.consFile "apt.md" FsForest.nil))
    (FsForest.consDir "linux" (FsForest.consFile "tar.md" FsForest.nil)
      (FsForest.consDir "windows" (FsForest.consFile "choco.md" FsForest.nil)
        (FsForest.consFile "top.md" (FsForest.consFile "notes.txt" FsForest.nil))))

/-- A pages forest whose only page sits in a nested subdirectory
`common/sub/foo.md`. -/
def forestNested : FsForest :=
  FsForest.consDir "common"
    (FsForest.consDir "sub" (FsForest.consFile "foo.md" FsForest.nil) FsForest.nil)
    FsForest.nil

example : list_pages (some "linux") forestSample = ["apt", "tar", "top"] := by decide

example : list_pages (some "linux") forestNested = [] := by decide

/-! ## Helper lemmas about `find_pages` -/

/-- When the cache directory resolves, `find_pages` is the precedence-table
combination of the three candidate lookups. -/
theorem find_pages_ok_eq (env : Env) (fs : FS) (appRoot : Option String)
    (os : OsType) (name cd : String)
    (h : get_cache_dir env fs appRoot = Except.ok cd) :
    find_pages env fs appRoot os name =
      precedenceTable
        (pfCandidate fs (platformsDirOf cd) os (name ++ ".md"))
        (commonCandidate fs (platformsDirOf cd) (name ++ ".md"))
        (customCandidate env fs (platformsDirOf cd) (name ++ ".md")) := by
  rcases hpf : pfCandidate fs (platformsDirOf cd) os (name ++ ".md") with _ | pfp <;>
    rcases hco : commonCandidate fs (platformsDirOf cd) (name ++ ".md") with _ | cop <;>
      rcases hcu : customCandidate env fs (platformsDirOf cd) (name ++ ".md") with _ | cup <;>
        simp [find_pages, precedenceTable, h, hpf, hco, hcu]

/-- When the cache directory does not resolve, `find_pages` returns
`none`. -/
theorem find_pages_err_eq (env : Env) (fs : FS) (appRoot : Option String)
    (os : OsType) (name : String) (e : TealdeerError)
    (h : get_cache_dir env fs appRoot = Except.error e) :
    find_pages env fs appRoot os name = none := by
  simp [find_pages, h]

/-! ## Claim theorems about `find_pages`, `get_cache_dir`, `clear`,
`download` -/

/-- C1: whenever the cache root resolves, `find_pages` returns exactly the
ordered list prescribed by the precedence table of spec §4.4 applied to the
three candidate pages: `[platform, custom]`, `[platform]`, `[common,
custom]`, `[common]`, `[custom]`, or NotFound when all three are absent; in
particular common is never included when the platform page is present, and
the custom page, when present, is appended last. -/
theorem find_pages_matches_precedence_table (env : Env) (fs : FS)
    (appRoot : Option String) (os : OsType) (name cd : String)
    (h : get_cache_dir env fs appRoot = Except.ok cd) :
    find_pages env fs appRoot os name =
      precedenceTable
        (pfCandidate fs (platformsDirOf cd) os (name ++ ".md"))
        (commonCandidate fs (platformsDirOf cd) (name ++ ".md"))
        (customCandidate env fs (platformsDirOf cd) (name ++ ".md")) :=
  find_pages_ok_eq env fs appRoot os name cd h

/-- Witness for C1: a concrete resolving state in which the platform and
custom pages are present. -/
theorem find_pages_matches_precedence_table_witness :
    get_cache_dir envEmpty fsAll (some "/c") = Except.ok "/c" ∧
    find_pages envEmpty fsAll (some "/c") OsType.Linux "tar" =
      precedenceTable
        (pfCandidate fsAll (platformsDirOf "/c") OsType.Linux ("tar" ++ ".md"))
        (commonCandidate fsAll (platformsDirOf "/c") ("tar" ++ ".md"))
        (customCandidate envEmpty fsAll (platformsDirOf "/c") ("tar" ++ ".md")) :=
  ⟨rfl, find_pages_matches_precedence_table envEmpty fsAll (some "/c")
    OsType.Linux "tar" "/c" rfl⟩

/-- C4: assuming cache-root resolution succeeds, `find_pages` returns
NotFound (`none`) iff the platform, common and custom candidates are all
absent; and when resolution fails, the call returns NotFound instead of
surfacing the error. -/
theorem find_pages_notfound_iff (env : Env) (fs : FS)
    (appRoot : Option String) (os : OsType) (name : String) :
    (∀ cd, get_cache_dir env fs appRoot = Except.ok cd →
      (find_pages env fs appRoot os name = none ↔
        pfCandidate fs (platformsDirOf cd) os (name ++ ".md") = none ∧
        commonCandidate fs (platformsDirOf cd) (name ++ ".md") = none ∧
        customCandidate env fs (platformsDirOf cd) (name ++ ".md") = none)) ∧
    (∀ e, get_cache_dir env fs appRoot = Except.error e →
      find_pages env fs appRoot os name = none) := by
  constructor
  · intro cd h
    rw [find_pages_ok_eq env fs appRoot os name cd h]
    rcases pfCandidate fs (platformsDirOf cd) os (name ++ ".md") with _ | pfp <;>
      rcases commonCandidate fs (platformsDirOf cd) (name ++ ".md") with _ | cop <;>
        rcases customCandidate env fs (platformsDirOf cd) (name ++ ".md") with _ | cup <;>
          simp [precedenceTable]
  · intro e h
    exact find_pages_err_eq env fs appRoot os name e h

/-- Witness for C4: a concrete resolving state with no pages at all. -/
theorem find_pages_notfound_iff_witness :
    get_cache_dir envEmpty fsNone (some "/c") = Except.ok "/c" ∧
    (find_pages envEmpty fsNone (some "/c") OsType.Linux "tar" = none ↔
      pfCandidate fsNone (platformsDirOf "/c") OsType.Linux ("tar" ++ ".md") = none ∧
      commonCandidate fsNone (platformsDirOf "/c") ("tar" ++ ".md") = none ∧
      customCandidate envEmpty fsNone (platformsDirOf "/c") ("tar" ++ ".md") = none) :=
  ⟨rfl, (find_pages_notfound_iff envEmpty fsNone (some "/c") OsType.Linux "tar").1
    "/c" rfl⟩

/-- C7: `find_pages` never returns an empty list: every successful result
holds at least one path. -/
theorem find_pages_nonempty (env : Env) (fs : FS) (appRoot : Option String)
    (os : OsType) (name : String) (ps : List String)
    (h : find_pages env fs appRoot os name = some ps) : ps ≠ [] := by
  rcases hc : get_cache_dir env fs appRoot with e | cd
  · rw [find_pages_err_eq env fs appRoot os name e hc] at h
    exact absurd h (by simp)
  · rw [find_pages_ok_eq env fs appRoot os name cd hc] at h
    rcases hpf : pfCandidate fs (platformsDirOf cd) os (name ++ ".md") with _ | pfp <;>
      rcases hco : commonCandidate fs (platformsDirOf cd) (name ++ ".md") with _ | cop <;>
        rcases hcu : customCandidate env fs (platformsDirOf cd) (name ++ ".md") with _ | cup <;>
          rw [hpf, hco, hcu] at h <;> simp [precedenceTable] at h <;> simp [← h]

/-- Witness for C7: a concrete successful lookup yielding a nonempty
list. -/
theorem find_pages_nonempty_witness :
    find_pages envEmpty fsAll (some "/c") OsType.Linux "tar" =
      some ["/c/tldr-master/pages/linux/tar.md",
            "/c/tldr-master/pages/../pages.custom/tar.md"] ∧
    (["/c/tldr-master/pages/linux/tar.md",
      "/c/tldr-master/pages/../pages.custom/tar.md"] : List String) ≠ [] :=
  ⟨by decide, find_pages_nonempty envEmpty fsAll (some "/c") OsType.Linux "tar"
    ["/c/tldr-master/pages/linux/tar.md",
     "/c/tldr-master/pages/../pages.custom/tar.md"] (by decide)⟩

/-- C9: with `TEALDEER_CACHE_DIR` set, `get_cache_dir` returns its value iff
that value exists as a directory, and otherwise fails with a `CacheError`
(never falling back); with the variable unset it returns the conventional
user-cache directory, or fails with a `CacheError` when that cannot be
determined. -/
theorem get_cache_dir_spec (env : Env) (fs : FS) (appRoot : Option String) :
    (∀ v, env "TEALDEER_CACHE_DIR" = some v →
      ((get_cache_dir env fs appRoot = Except.ok v ↔
          (fs.pathExists v && fs.isDir v) = true) ∧
        ((fs.pathExists v && fs.isDir v) = false →
          ∃ msg, get_cache_dir env fs appRoot =
            Except.error (TealdeerError.CacheError msg)))) ∧
    (env "TEALDEER_CACHE_DIR" = none →
      ((∀ d, appRoot = some d → get_cache_dir env fs appRoot = Except.ok d) ∧
        (appRoot = none →
          ∃ msg, get_cache_dir env fs appRoot =
            Except.error (TealdeerError.CacheError msg)))) := by
  constructor
  · intro v hv
    constructor
    · by_cases hc : (fs.pathExists v && fs.isDir v) = true <;>
        simp [get_cache_dir, hv, hc]
    · intro hc
      exact ⟨"Path specified by $TEALDEER_CACHE_DIR does not exist or is not a directory.",
        by simp [get_cache_dir, hv, hc]⟩
  · intro hv
    constructor
    · intro d hd
      simp [get_cache_dir, hv, hd]
    · intro hd
      exact ⟨"Could not determine user cache directory.",
        by simp [get_cache_dir, hv, hd]⟩

/-- Witness for C9: override set to an existing directory is returned. -/
theorem get_cache_dir_spec_witness :
    envCacheDirSet "TEALDEER_CACHE_DIR" = some "/c" ∧
    (get_cache_dir envCacheDirSet fsAll none = Except.ok "/c" ↔
      (fsAll.pathExists "/c" && fsAll.isDir "/c") = true) :=
  ⟨rfl, ((get_cache_dir_spec envCacheDirSet fsAll none).1 "/c" rfl).1⟩

/-- C8: `clear` fails with a `CacheError` when the cache root does not
exist, fails with a `CacheError` when it exists but is not a directory, and
when it is an existing directory (and removal succeeds) removes it
recursively, after which an existence check on it returns false. -/
theorem clear_spec (env : Env) (fs : FS) (appRoot : Option String)
    (removeOk : Bool) (path : String)
    (h : get_cache_dir env fs appRoot = Except.ok path) :
    (fs.pathExists path = false →
      ∃ msg, clear env fs appRoot removeOk =
        Except.error (TealdeerError.CacheError msg)) ∧
    (fs.pathExists path = true → fs.isDir path = false →
      ∃ msg, clear env fs appRoot removeOk =
        Except.error (TealdeerError.CacheError msg)) ∧
    (fs.pathExists path = true → fs.isDir path = true → removeOk = true →
      clear env fs appRoot removeOk = Except.ok (fs.removeAll path) ∧
      (fs.removeAll path).pathExists path = false) := by
  refine ⟨?_, ?_, ?_⟩
  · intro hex
    exact ⟨"Cache path (" ++ path ++ ") does not exist.",
      by simp [clear, h, hex]⟩
  · intro hex hdir
    exact ⟨"Cache path (" ++ path ++ ") is not a directory.",
      by simp [clear, h, hex, hdir]⟩
  · intro hex hdir hrm
    constructor
    · simp [clear, h, hex, hdir, hrm]
    · simp [FS.removeAll, isUnder]

/-- Witness for C8: clearing an existing directory removes it. -/
theorem clear_spec_witness :
    get_cache_dir envEmpty fsAll (some "/c") = Except.ok "/c" ∧
    clear envEmpty fsAll (some "/c") true = Except.ok (fsAll.removeAll "/c") ∧
    (fsAll.removeAll "/c").pathExists "/c" = false :=
  ⟨rfl, (clear_spec envEmpty fsAll (some "/c") true "/c" rfl).2.2 rfl rfl rfl⟩

/-- C10: the custom candidate page is always looked up by joining the value
of `TEALDEER_CUSTOM_PAGES_DIR` (default `../pages.custom`) onto the pages
directory; joining a relative value appends it below the page tree, joining
an absolute value replaces the page-tree prefix entirely. -/
theorem custom_pages_dir_join_spec (env : Env) (fs : FS) (cd fname : String) :
    customCandidate env fs (platformsDirOf cd) fname =
      checkFile fs (pathJoin (pathJoin (platformsDirOf cd) (customEnvDir env)) fname) ∧
    (env "TEALDEER_CUSTOM_PAGES_DIR" = none →
      customEnvDir env = "../pages.custom") ∧
    (∀ v, env "TEALDEER_CUSTOM_PAGES_DIR" = some v → customEnvDir env = v) ∧
    (∀ v, isAbsolute v = false →
      pathJoin (platformsDirOf cd) v = platformsDirOf cd ++ "/" ++ v) ∧
    (∀ v, isAbsolute v = true → pathJoin (platformsDirOf cd) v = v) := by
  refine ⟨rfl, ?_, ?_, ?_, ?_⟩
  · intro hv
    simp [customEnvDir, hv]
  · intro v hv
    simp [customEnvDir, hv]
  · intro v hv
    simp [pathJoin, hv]
  · intro v hv
    simp [pathJoin, hv]

/-- Witness for C10: default value when the variable is unset, and an
absolute override replacing the page-tree prefix. -/
theorem custom_pages_dir_join_spec_witness :
    envEmpty "TEALDEER_CUSTOM_PAGES_DIR" = none ∧
    customEnvDir envEmpty = "../pages.custom" ∧
    isAbsolute "/abs" = true ∧
    pathJoin (platformsDirOf "/c") "/abs" = "/abs" :=
  ⟨rfl, (custom_pages_dir_join_spec envEmpty fsAll "/c" "tar.md").2.1 rfl,
    rfl, (custom_pages_dir_join_spec envEmpty fsAll "/c" "tar.md").2.2.2.2 "/abs" rfl⟩

/-- Counterexample for C2: a response with non-success status 404 is
returned by `download` as a successful byte buffer (the source never
inspects `resp.status()`), contradicting the claim that any non-success
status fails with an `UpdateError`. -/
theorem download_nonsuccess_counterexample :
    download (Except.ok { status := 404, body := [60, 47, 62] }) true =
      Except.ok [60, 47, 62] ∧ ¬ (200 ≤ 404 ∧ 404 < 300) :=
  ⟨rfl, by decide⟩

/-- C2 (amended): `download` fails with an `UpdateError` on any transport or
TLS failure of `send()`, and on failure reading the response body; it does
not inspect the HTTP status, so the body of any received response —
including a non-success one — is returned as a successful byte buffer. -/
theorem download_error_classification :
    (∀ e copyOk, download (Except.error e) copyOk =
      Except.error (TealdeerError.UpdateError e)) ∧
    (∀ resp, download (Except.ok resp) true = Except.ok resp.body) ∧
    (∀ resp, download (Except.ok resp) false =
      Except.error (TealdeerError.UpdateError "could not read response body")) :=
  ⟨fun _ _ => rfl, fun _ => rfl, fun _ => rfl⟩

/-! ## The string order used by `pages.sort()` -/

theorem char_toNat_inj {a b : Char} (h : a.toNat = b.toNat) : a = b := by
  rw [← Char.ofNat_toNat a, ← Char.ofNat_toNat b, h]

theorem listLe_total : ∀ as bs : List Char, listLe as bs = true ∨ listLe bs as = true
  | [], _ => Or.inl rfl
  | _ :: _, [] => Or.inr rfl
  | a :: as, b :: bs => by
    simp only [listLe]
    rcases Nat.lt_trichotomy a.toNat b.toNat with h | h | h
    · left
      simp [h]
    · have h1 : ¬ a.toNat < b.toNat := by omega
      have h2 : ¬ b.toNat < a.toNat := by omega
      simpa [h1, h2] using listLe_total as bs
    · right
      simp [h]

theorem listLe_trans : ∀ as bs cs : List Char,
    listLe as bs = true → listLe bs cs = true → listLe as cs = true
  | [], _, _ => fun _ _ => rfl
  | _ :: _, [], _ => by intro h _; simp [listLe] at h
  | _ :: _, _ :: _, [] => by intro _ h; simp [listLe] at h
  | a :: as, b :: bs, c :: cs => by
    intro h1 h2
    simp only [listLe] at h1 h2 ⊢
    split_ifs at h1 h2 ⊢ <;>
      first
        | rfl
        | omega
        | exact listLe_trans as bs cs h1 h2

theorem listLe_antisymm : ∀ as bs : List Char,
    listLe as bs = true → listLe bs as = true → as = bs
  | [], [] => fun _ _ => rfl
  | [], _ :: _ => by intro _ h; simp [listLe] at h
  | _ :: _, [] => by intro h _; simp [listLe] at h
  | a :: as, b :: bs => by
    intro h1 h2
    rcases Nat.lt_trichotomy a.toNat b.toNat with h | h | h
    · have hba : ¬ b.toNat < a.toNat := by omega
      simp only [listLe, if_neg hba, if_pos h] at h2
      exact absurd h2 (by simp)
    · have hab : ¬ a.toNat < b.toNat := by omega
      have hba : ¬ b.toNat < a.toNat := by omega
      simp only [listLe, if_neg hab, if_neg hba] at h1 h2
      rw [char_toNat_inj h, listLe_antisymm as bs h1 h2]
    · have hab : ¬ a.toNat < b.toNat := by omega
      simp only [listLe, if_neg hab, if_pos h] at h1
      exact absurd h1 (by simp)

theorem strLe_total (a b : String) : strLe a b = true ∨ strLe b a = true :=
  listLe_total a.toList b.toList

theorem strLe_trans {a b c : String} (h1 : strLe a b = true)
    (h2 : strLe b c = true) : strLe a c = true :=
  listLe_trans a.toList b.toList c.toList h1 h2

theorem strLe_antisymm {a b : String} (h1 : strLe a b = true)
    (h2 : strLe b a = true) : a = b := by
  have h := listLe_antisymm a.toList b.toList h1 h2
  cases a
  cases b
  exact congrArg String.mk h

/-! ## Sorting and dedup lemmas -/

theorem mem_insertSorted (x y : String) :
    ∀ l : List String, x ∈ insertSorted y l ↔ x = y ∨ x ∈ l := by
  intro l
  induction l with
  | nil => simp [insertSorted]
  | cons z zs ih =>
    by_cases h : strLe y z = true
    · simp [insertSorted, h]
    · rw [insertSorted, if_neg h]
      simp only [List.mem_cons, ih]
      tauto

theorem mem_sortPages (x : String) :
    ∀ l : List String, x ∈ sortPages l ↔ x ∈ l := by
  intro l
  induction l with
  | nil => simp [sortPages]
  | cons z zs ih =>
    simp [sortPages, mem_insertSorted, ih]

theorem pairwise_insertSorted (y : String) :
    ∀ l : List String, List.Pairwise (fun a b => strLe a b = true) l →
      List.Pairwise (fun a b => strLe a b = true) (insertSorted y l) := by
  intro l
  induction l with
  | nil => intro _; simp [insertSorted]
  | cons z zs ih =>
    intro hp
    rcases List.pairwise_cons.mp hp with ⟨hz, hzs⟩
    by_cases h : strLe y z = true
    · rw [insertSorted, if_pos h]
      refine List.Pairwise.cons ?_ hp
      intro b hb
      rcases List.mem_cons.mp hb with rfl | hb
      · exact h
      · exact strLe_trans h (hz b hb)
    · rw [insertSorted, if_neg h]
      refine List.Pairwise.cons ?_ (ih hzs)
      intro b hb
      rcases (mem_insertSorted b y zs).mp hb with rfl | hb
      · rcases strLe_total b z with hyz | hzy
        · exact absurd hyz h
        · exact hzy
      · exact hz b hb

theorem pairwise_sortPages :
    ∀ l : List String, List.Pairwise (fun a b => strLe a b = true) (sortPages l) := by
  intro l
  induction l with
  | nil => simp [sortPages]
  | cons z zs ih => exact pairwise_insertSorted z (sortPages zs) ih

theorem mem_dedupConsec : ∀ (l : List String) (x : String),
    x ∈ dedupConsec l ↔ x ∈ l
  | [], x => by simp [dedupConsec]
  | [a], x => by simp [dedupConsec]
  | a :: b :: rest, x => by
    by_cases h : a == b
    · have hab : a = b := eq_of_beq h
      subst hab
      simp [dedupConsec, mem_dedupConsec (a :: rest) x]
    · rw [dedupConsec, if_neg h]
      simp only [List.mem_cons, mem_dedupConsec (b :: rest) x]

theorem pairwise_dedupConsec : ∀ l : List String,
    List.Pairwise (fun a b => strLe a b = true) l →
    List.Pairwise (fun a b => strLe a b = true ∧ a ≠ b) (dedupConsec l)
  | [] => by intro _; simp [dedupConsec]
  | [a] => by intro _; simp [dedupConsec]
  | a :: b :: rest => by
    intro hp
    rcases List.pairwise_cons.mp hp with ⟨ha, htail⟩
    by_cases h : a == b
    · have hab : a = b := eq_of_beq h
      subst hab
      rw [dedupConsec, if_pos (beq_self_eq_true a)]
      exact pairwise_dedupConsec (a :: rest) htail
    · rw [dedupConsec, if_neg (by simpa using h)]
      refine List.Pairwise.cons ?_ (pairwise_dedupConsec (b :: rest) htail)
      intro x hx
      rw [mem_dedupConsec] at hx
      refine ⟨ha x hx, ?_⟩
      rcases List.mem_cons.mp hx with rfl | hxr
      · intro heq
        exact h (by simp [heq])
      · intro heq
        have hbx : strLe b x = true := (List.pairwise_cons.mp htail).1 x hxr
        rw [← heq] at hbx
        have hab : strLe a b = true := ha b (List.mem_cons_self b rest)
        exact h (by simp [strLe_antisymm hab hbx])

/-! ## Walk lemmas -/

theorem lastSeg_concat : ∀ (l : List String) (n : String), lastSeg (l ++ [n]) = n
  | [], _ => rfl
  | [x], n => rfl
  | x :: y :: xs, n => lastSeg_concat (y :: xs) n

theorem should_walk_file (platform : Option String) (n : String) :
    should_walk platform false n = true := rfl

theorem should_walk_dir_iff (platform : Option String) (seg : String) :
    should_walk platform true seg = true ↔
      seg = "common" ∨ platform = some seg := by
  cases platform with
  | none =>
    simp only [should_walk, if_true]
    by_cases h : seg == "common"
    · simp [h, eq_of_beq h]
    · simp only [h, if_false]
      constructor
      · intro hf
        exact absurd hf (by simp [h])
      · rintro (rfl | hf)
        · exact absurd (beq_self_eq_true "common") (by simpa using h)
        · exact absurd hf (by simp)
  | some p =>
    simp only [should_walk, if_true]
    by_cases h : seg == "common"
    · simp [h, eq_of_beq h]
    · rw [if_neg h]
      constructor
      · intro hb
        right
        rw [eq_of_beq hb]
      · rintro (rfl | hp)
        · exact absurd (beq_self_eq_true "common") (by simpa using h)
        · rw [Option.some.injEq] at hp
          simp [hp]

theorem walkForest_shape (pred : Bool → String → Bool) :
    ∀ (ts : FsForest) (base pth : List String) (b : Bool),
      (pth, b) ∈ walkForest pred base ts →
      ∃ rest, pth = base ++ rest ∧ rest ≠ [] ∧
        ∀ seg ∈ rest.dropLast, pred true seg = true
  | FsForest.nil, base, pth, b => by simp [walkForest]
  | FsForest.consFile n ts, base, pth, b => by
    intro h
    rw [walkForest] at h
    rcases List.mem_append.mp h with h1 | h2
    · by_cases hp : pred false n = true
      · rw [if_pos hp] at h1
        simp only [List.mem_singleton, Prod.mk.injEq] at h1
        exact ⟨[n], h1.1, by simp, by simp⟩
      · rw [if_neg hp] at h1
        exact absurd h1 (by simp)
    · exact walkForest_shape pred ts base pth b h2
  | FsForest.consDir n cs ts, base, pth, b => by
    intro h
    rw [walkForest] at h
    rcases List.mem_append.mp h with h1 | h2
    · by_cases hp : pred true n = true
      · rw [if_pos hp] at h1
        rcases List.mem_cons.mp h1 with he | hin
        · simp only [Prod.mk.injEq] at he
          exact ⟨[n], he.1, by simp, by simp⟩
        · rcases walkForest_shape pred cs (base ++ [n]) pth b hin with
            ⟨rest, hpe, hne, hperm⟩
          refine ⟨n :: rest, by simpa [List.append_assoc] using hpe, by simp, ?_⟩
          intro seg hseg
          rcases rest with _ | ⟨r, rs⟩
          · exact absurd rfl hne
          · rcases List.mem_cons.mp (by simpa [List.dropLast] using hseg) with rfl | hs
            · exact hp
            · exact hperm seg hs
      · rw [if_neg hp] at h1
        exact absurd h1 (by simp)
    · exact walkForest_shape pred ts base pth b h2

theorem mem_collectStems (platform : Option String) (tree : FsForest) (s : String) :
    s ∈ collectStems platform tree ↔
      ∃ pth, (pth, false) ∈ walkForest (should_walk platform) [] tree ∧
        (fileStemExt (lastSeg pth)).2.getD "" = "md" ∧
        (fileStemExt (lastSeg pth)).1 = s := by
  unfold collectStems
  rw [List.mem_filterMap]
  constructor
  · rintro ⟨⟨pth, bb⟩, hmem, hf⟩
    by_cases hc : (!bb && ((fileStemExt (lastSeg pth)).2.getD "" == "md")) = true
    · rw [if_pos hc] at hf
      have hc2 := hc
      simp only [Bool.and_eq_true] at hc2
      rcases hc2 with ⟨hb, hmd⟩
      have hbb : bb = false := by
        cases bb
        · rfl
        · exact absurd hb (by simp)
      subst hbb
      exact ⟨pth, hmem, eq_of_beq hmd, Option.some.inj hf⟩
    · rw [if_neg hc] at hf
      exact absurd hf (by simp)
  · rintro ⟨pth, hmem, hmd, hst⟩
    refine ⟨(pth, false), hmem, ?_⟩
    rw [if_pos (by simp [hmd])]
    rw [hst]

theorem mem_list_pages_iff (platform : Option String) (tree : FsForest)
    (s : String) :
    s ∈ list_pages platform tree ↔ s ∈ collectStems platform tree := by
  unfold list_pages
  rw [mem_dedupConsec, mem_sortPages]

theorem hasFileAt_consDir_single (m n : String) (cs rest : FsForest) :
    hasFileAt [n] (FsForest.consDir m cs rest) = hasFileAt [n] rest := rfl

theorem hasFileAt_consDir_cons (m : String) (cs rest : FsForest)
    (d : String) (ds1 : List String) (n : String) :
    hasFileAt ((d :: ds1) ++ [n]) (FsForest.consDir m cs rest) =
      ((m == d && hasFileAt (ds1 ++ [n]) cs) ||
        hasFileAt ((d :: ds1) ++ [n]) rest) := by
  rcases ds1 with _ | ⟨e, es⟩ <;> rfl

theorem walk_complete (pred : Bool → String → Bool) (ts : FsForest) :
    ∀ (ds base : List String) (n : String),
      hasFileAt (ds ++ [n]) ts = true →
      (∀ d ∈ ds, pred true d = true) →
      pred false n = true →
      ((base ++ ds) ++ [n], false) ∈ walkForest pred base ts := by
  induction ts with
  | nil =>
    intro ds base n hfile _ _
    rw [hasFileAt] at hfile
    exact absurd hfile (by simp)
  | consFile m rest ih =>
    intro ds base n hfile hperm hn
    rw [hasFileAt] at hfile
    rw [walkForest]
    simp only [Bool.or_eq_true] at hfile
    rcases hfile with heq | hrest
    · have hlist : ds ++ [n] = [m] := eq_of_beq heq
      rcases ds with _ | ⟨d, ds1⟩
      · have hm : n = m := by simpa using hlist
        subst hm
        refine List.mem_append.mpr (Or.inl ?_)
        rw [if_pos hn]
        simp
      · exact absurd hlist (by simp)
    · exact List.mem_append.mpr (Or.inr (ih ds base n hrest hperm hn))
  | consDir m cs rest ihc ihr =>
    intro ds base n hfile hperm hn
    rcases ds with _ | ⟨d, ds1⟩
    · rw [List.nil_append] at hfile
      rw [hasFileAt_consDir_single] at hfile
      rw [walkForest]
      refine List.mem_append.mpr (Or.inr ?_)
      have hrec := ihr [] base n (by simpa using hfile) (by simp) hn
      simpa using hrec
    · rw [hasFileAt_consDir_cons] at hfile
      rw [walkForest]
      simp only [Bool.or_eq_true] at hfile
      rcases hfile with heq | hrest
      · simp only [Bool.and_eq_true] at heq
        rcases heq with ⟨hmd, hin⟩
        have hmd2 : m = d := eq_of_beq hmd
        subst hmd2
        have hpm : pred true m = true := hperm m (List.mem_cons_self m ds1)
        refine List.mem_append.mpr (Or.inl ?_)
        rw [if_pos hpm]
        refine List.mem_cons.mpr (Or.inr ?_)
        have hrec := ihc ds1 (base ++ [m]) n hin
          (fun x hx => hperm x (List.mem_cons_of_mem m hx)) hn
        simpa [List.append_assoc] using hrec
      · exact List.mem_append.mpr (Or.inr (ihr (d :: ds1) base n hrest hperm hn))

/-! ## Claim theorems about `list_pages` -/

/-- C6: `list_pages` output is sorted ascending (by the string order that
`sort()` uses) and has no duplicates; a stem collected once or many times by
the walk — for instance a name present in both `common` and the platform
directory — contributes exactly one entry. -/
theorem list_pages_sorted_nodup (platform : Option String) (tree : FsForest) :
    List.Pairwise (fun a b => strLe a b = true) (list_pages platform tree) ∧
    (list_pages platform tree).Nodup ∧
    (∀ s, s ∈ list_pages platform tree ↔ s ∈ collectStems platform tree) := by
  have hsorted := pairwise_sortPages (collectStems platform tree)
  have hded := pairwise_dedupConsec (sortPages (collectStems platform tree)) hsorted
  refine ⟨?_, ?_, fun s => mem_list_pages_iff platform tree s⟩
  · exact List.Pairwise.imp (fun h => h.1) hded
  · exact List.Pairwise.imp (fun h => h.2) hded

/-- C5: every entry the filtered walk yields — in particular every stem
`list_pages` returns — lies below directories that are all named `common` or
named like the active platform directory; other directories (other
platforms, custom pages) are pruned from the traversal itself. -/
theorem list_pages_only_permitted_dirs (platform : Option String) (tree : FsForest) :
    (∀ pth b, (pth, b) ∈ walkForest (should_walk platform) [] tree →
      ∀ seg ∈ pth.dropLast, seg = "common" ∨ platform = some seg) ∧
    (∀ s ∈ list_pages platform tree, ∃ pth,
      (pth, false) ∈ walkForest (should_walk platform) [] tree ∧
      (fileStemExt (lastSeg pth)).1 = s ∧
      ∀ seg ∈ pth.dropLast, seg = "common" ∨ platform = some seg) := by
  have hmain : ∀ pth b, (pth, b) ∈ walkForest (should_walk platform) [] tree →
      ∀ seg ∈ pth.dropLast, seg = "common" ∨ platform = some seg := by
    intro pth b hmem seg hseg
    rcases walkForest_shape (should_walk platform) tree [] pth b hmem with
      ⟨rest, hpe, hne, hperm⟩
    rw [List.nil_append] at hpe
    subst hpe
    exact (should_walk_dir_iff platform seg).mp (hperm seg hseg)
  refine ⟨hmain, ?_⟩
  intro s hs
  rcases (mem_collectStems platform tree s).mp
    ((mem_list_pages_iff platform tree s).mp hs) with ⟨pth, hmem, hmd, hst⟩
  exact ⟨pth, hmem, hst, hmain pth false hmem⟩

/-- Witness for C5: the stem `tar` of the sample forest comes from a path
below a permitted directory. -/
theorem list_pages_only_permitted_dirs_witness :
    ("tar" ∈ list_pages (some "linux") forestSample) ∧
    (∃ pth, (pth, false) ∈ walkForest (should_walk (some "linux")) [] forestSample ∧
      (fileStemExt (lastSeg pth)).1 = "tar" ∧
      ∀ seg ∈ pth.dropLast, seg = "common" ∨ (some "linux" : Option String) = some seg) :=
  ⟨by decide,
    (list_pages_only_permitted_dirs (some "linux") forestSample).2 "tar" (by decide)⟩

/-- Counterexample for C3: `forestNested` holds the regular file
`common/sub/foo.md` — a `.md` file inside a nested subdirectory of the
permitted directory `common` — yet `list_pages` does not return its stem,
because `filter_entry` applies `should_walk` at every depth and prunes the
directory `sub`. -/
theorem list_pages_nested_dir_counterexample :
    hasFileAt ["common", "sub", "foo.md"] forestNested = true ∧
    (fileStemExt "foo.md").2 = some "md" ∧
    "foo" ∉ list_pages (some "linux") forestNested :=
  ⟨by decide, by decide, by decide⟩

/-- C3 (amended): `list_pages` collects the file-name stem of every regular
file with extension exactly `.md` that is reachable from the pages directory
by descending only through directories accepted by the walk filter (named
`common` or like the platform directory); nested subdirectories with any
other name are pruned at every depth, not just at the top level. -/
theorem list_pages_collects_reachable (platform : Option String)
    (tree : FsForest) (ds : List String) (n s : String)
    (hfile : hasFileAt (ds ++ [n]) tree = true)
    (hperm : ∀ d ∈ ds, should_walk platform true d = true)
    (hmd : (fileStemExt n).2.getD "" = "md")
    (hstem : (fileStemExt n).1 = s) :
    s ∈ list_pages platform tree := by
  have hwalk := walk_complete (should_walk platform) tree ds [] n hfile hperm
    (should_walk_file platform n)
  rw [List.nil_append] at hwalk
  refine (mem_list_pages_iff platform tree s).mpr ?_
  refine (mem_collectStems platform tree s).mpr ⟨ds ++ [n], hwalk, ?_, ?_⟩
  · rw [lastSeg_concat]
    exact hmd
  · rw [lastSeg_concat]
    exact hstem

/-- Witness for C3 (amended): `common/tar.md` is reachable through the
permitted directory `common`, and its stem is listed. -/
theorem list_pages_collects_reachable_witness :
    hasFileAt (["common"] ++ ["tar.md"]) forestFlat = true ∧
    (∀ d ∈ ["common"], should_walk (some "linux") true d = true) ∧
    (fileStemExt "tar.md").2.getD "" = "md" ∧
    (fileStemExt "tar.md").1 = "tar" ∧
    "tar" ∈ list_pages (some "linux") forestFlat :=
  ⟨by decide, by decide, by decide, by decide,
    list_pages_collects_reachable (some "linux") forestFlat ["common"] "tar.md" "tar"
      (by decide) (by decide) (by decide) (by decide)⟩
